import Mathlib

/-!
Verification of the buildkite-accounter pipeline: a shallow embedding of the
normalization, duplicate-report, dedupe-collapse, output selection and
pagination logic of the repository, followed by theorems about the embedded
definitions.

Modelling conventions:
* Timestamps are modelled as an abstract wrapper around a natural number;
  only presence or absence of a timestamp matters to the properties below,
  so the textual rendering of a timestamp is a stand-in.
* Go strings are modelled as Lean strings; the byte order used by the Go
  sort on strings coincides with code-point order, embedded below as lexLt.
* The Go sort on the email list is embedded as an insertion sort: on
  strings, any comparison sort ascending under the same order produces the
  same list, because equal keys are identical values.
* Fallible Go functions returning (value, error) become Except values.
* The HTTP transport is modelled as a total function from a cursor to a
  page (for pagination) and as a response record (for error checking); the
  body parse of the error envelope is a parameter function from the body to
  the list of parsed error messages, empty when the body does not parse.
* The unbounded pagination loop takes explicit fuel; the repository code
  loops until the server stops signalling further pages.
-/

/-- Abstract timestamp standing in for Go time.Time. -/
structure Time where
  val : Nat
deriving Repr, DecidableEq

/-- Stand-in for the textual rendering of a timestamp. -/
def formatTime (t : Time) : String := toString t.val

/-- Embeds strings.ToLower restricted to the code points the tool meets. -/
def toLowerString (s : String) : String := String.mk (s.data.map Char.toLower)

/-- Strict byte-order comparison of two strings given as character lists,
as used by the Go sort on strings. -/
def lexLt : List Char → List Char → Bool
  | [], [] => false
  | [], _ :: _ => true
  | _ :: _, [] => false
  | a :: as, b :: bs =>
    if a.toNat < b.toNat then true
    else if b.toNat < a.toNat then false
    else lexLt as bs

/-- Non-strict order on strings derived from lexLt. -/
def strLe (a b : String) : Bool := !(lexLt b.data a.data)

/-- Inserts a string into an already sorted list, keeping it sorted. -/
def insertSorted (x : String) : List String → List String
  | [] => [x]
  | y :: ys => if strLe x y then x :: y :: ys else y :: insertSorted x ys

/-- Embeds sort.Strings: ascending sort of a list of strings. -/
def sortStrings (l : List String) : List String := l.foldr insertSorted []

/-- Error raised by the cli when an effective email has no at sign. -/
inductive CliError where
  | invalidEmail (email : String)
deriving Repr, DecidableEq

/-- The message the cli error renders, as formatted by the source. -/
def CliError.message : CliError → String
  | .invalidEmail email => email ++ " is an invalid email address"

/-- Raw SSO authorization record fetched from the API. -/
structure Authorization where
  id : String
  email : String
  name : String
  createdAt : Time
  expireAt : Option Time
  revokedAt : Option Time
  userSessionDestroyedAt : Option Time
deriving Repr, DecidableEq

/-- Raw organization member record fetched from the API. -/
structure OrgMember where
  id : String
  name : String
  email : String
  role : String
  bot : Bool
  complimentary : Bool
  createdAt : Time
  authorization : Option Authorization
deriving Repr, DecidableEq

/-- Normalized cross-organization member record. -/
structure Member where
  id : String
  email : String
  domain : String
  name : String
  org : String
  role : String
  lastAuth : Option Time
  complimentary : Bool
deriving Repr, DecidableEq

/-- A report entry: a member together with its duplicate lists. -/
structure MemberWithDuplicates where
  member : Member
  nameDuplicates : List Member
  emailDuplicates : List Member
deriving Repr, DecidableEq

/-- Index of the last occurrence of a character in a character list,
embedding strings.LastIndex for a single character. -/
def lastIndexOf : List Char → Char → Option Nat
  | [], _ => none
  | a :: as, c =>
    match lastIndexOf as c with
    | some i => some (i + 1)
    | none => if a = c then some 0 else none

/-- Embeds getEmailDomain: the substring following the last at sign, or an
invalid-email error when the string has no at sign. -/
def getEmailDomain (email : String) : Except CliError String :=
  match lastIndexOf email.data '@' with
  | some i => Except.ok (String.mk (email.data.drop (i + 1)))
  | none => Except.error (CliError.invalidEmail email)

/-- The effective email of a raw member: the identity email of the
authorization when one is present, else the account email. -/
def effectiveEmail (om : OrgMember) : String :=
  match om.authorization with
  | some auth => auth.email
  | none => om.email

/-- Last authentication timestamp: the creation time of the authorization
when one is present, else none. -/
def lastAuthOf (om : OrgMember) : Option Time :=
  match om.authorization with
  | some auth => some auth.createdAt
  | none => none

/-- Embeds the normalization of one raw member inside cli.getMembers. -/
def normalizeMember (orgSlug : String) (om : OrgMember) : Except CliError Member :=
  match getEmailDomain (effectiveEmail om) with
  | Except.error e => Except.error e
  | Except.ok domain =>
    Except.ok
      { id := om.id
        email := effectiveEmail om
        domain := domain
        name := om.name
        org := orgSlug
        role := toLowerString om.role
        lastAuth := lastAuthOf om
        complimentary := om.complimentary }

/-- Normalizes all raw members of one organization, failing fast. -/
def normalizeAll (orgSlug : String) : List OrgMember → Except CliError (List Member)
  | [] => Except.ok []
  | om :: oms =>
    match normalizeMember orgSlug om with
    | Except.error e => Except.error e
    | Except.ok m =>
      match normalizeAll orgSlug oms with
      | Except.error e => Except.error e
      | Except.ok ms => Except.ok (m :: ms)

/-- Embeds cli.getMembers over already fetched per-organization raw member
lists: normalizes organization by organization, aborting on the first
error and returning no result list. -/
def getMembers : List (String × List OrgMember) → Except CliError (List Member)
  | [] => Except.ok []
  | (orgSlug, oms) :: rest =>
    match normalizeAll orgSlug oms with
    | Except.error e => Except.error e
    | Except.ok ms =>
      match getMembers rest with
      | Except.error e => Except.error e
      | Except.ok more => Except.ok (ms ++ more)

/-- Embeds filterMembers. -/
def filterMembers (members : List Member) (f : Member → Bool) : List Member :=
  members.filter f

/-- Embeds filterMembersByEmail. -/
def filterMembersByEmail (members : List Member) (email : String) : List Member :=
  filterMembers members (fun m => m.email == email)

/-- The report loop of cli.Run: one iteration per element of the sorted
email list, skipping emails excluded by the single-email filter and
emails matching no member. -/
def buildReportLoop (members : List Member) (emailFilter : String) :
    List String → List MemberWithDuplicates
  | [] => []
  | email :: rest =>
    if (emailFilter != "") && (emailFilter != email) then
      buildReportLoop members emailFilter rest
    else
      match filterMembersByEmail members email with
      | [] => buildReportLoop members emailFilter rest
      | member :: dups =>
        { member := member
          emailDuplicates := dups
          nameDuplicates :=
            filterMembers members
              (fun m => m.name == member.name && m.email != member.email) }
        :: buildReportLoop members emailFilter rest

/-- Embeds the report construction of cli.Run: collect the email of every
member, sort ascending, then run the report loop. -/
def buildReport (emailFilter : String) (members : List Member) :
    List MemberWithDuplicates :=
  buildReportLoop members emailFilter (sortStrings (members.map Member.email))

/-- One marking step of the dedupe collapse: the kept representative id,
plus its email-duplicate ids when deduping by email, plus its
name-duplicate ids when deduping by name. -/
def markSeen (dedupeEmail dedupeName : Bool) (r : MemberWithDuplicates)
    (seen : List String) : List String :=
  let seen₁ := seen ++ [r.member.id]
  let seen₂ := if dedupeEmail then seen₁ ++ r.emailDuplicates.map Member.id else seen₁
  if dedupeName then seen₂ ++ r.nameDuplicates.map Member.id else seen₂

/-- The walk of the dedupe collapse in cli.Run: skip entries whose
representative id was already seen, keep the others and mark. -/
def collapseGo (dedupeEmail dedupeName : Bool) :
    List MemberWithDuplicates → List String → List MemberWithDuplicates
  | [], _ => []
  | r :: rs, seen =>
    if r.member.id ∈ seen then collapseGo dedupeEmail dedupeName rs seen
    else r :: collapseGo dedupeEmail dedupeName rs (markSeen dedupeEmail dedupeName r seen)

/-- Embeds the dedupe collapse of cli.Run: the walk when either flag is
set, the report unchanged otherwise. -/
def collapse (dedupeEmail dedupeName : Bool) (report : List MemberWithDuplicates) :
    List MemberWithDuplicates :=
  if dedupeEmail || dedupeName then collapseGo dedupeEmail dedupeName report []
  else report

/-- Embeds the parse of the dedupe flag list in cli.Run: first component
is dedupe by email, second is dedupe by name. -/
def parseDedupe (dedupe : List String) : Bool × Bool :=
  dedupe.foldl
    (fun p d => if d = "email" then (true, p.2) else if d = "name" then (p.1, true) else p)
    (false, false)

/-- The CSV header row written by cli.Run. -/
def csvHeader : List String := ["email", "name", "org", "role", "last_sso_auth"]

/-- The last-auth column: the formatted timestamp, or empty when absent. -/
def formatLastAuth : Option Time → String
  | none => ""
  | some t => formatTime t

/-- One CSV row per normalized member, as written by cli.Run. -/
def csvRow (m : Member) : List String :=
  [m.email, m.name, m.org, m.role, formatLastAuth m.lastAuth]

/-- All CSV data rows: one per normalized member. -/
def csvRows (members : List Member) : List (List String) := members.map csvRow

/-- The configuration fields of the cli that the Run pipeline reads. -/
structure Config where
  email : String
  dedupe : List String
  output : String
deriving Repr, DecidableEq

/-- The observable output of cli.Run in each output mode. -/
inductive RunOutput where
  | countOut (n : Nat)
  | jsonOut (report : List MemberWithDuplicates)
  | csvOut (rows : List (List String))
  | noOutput
deriving Repr, DecidableEq

/-- Embeds cli.Run after member fetching: build the report from the email
filter, collapse it according to the dedupe flags, then render according
to the output mode; the CSV branch renders the raw normalized members. -/
def cliRun (cfg : Config) (members : List Member) : RunOutput :=
  let report := buildReport cfg.email members
  let flags := parseDedupe cfg.dedupe
  let result := collapse flags.1 flags.2 report
  if cfg.output = "count" then RunOutput.countOut result.length
  else if cfg.output = "json" then RunOutput.jsonOut result
  else if cfg.output = "csv" then RunOutput.csvOut (csvHeader :: csvRows members)
  else RunOutput.noOutput

/-- GraphQL page metadata. -/
structure PageInfo where
  hasNextPage : Bool
  endCursor : String
deriving Repr, DecidableEq

/-- One page of organization members as served by the API. -/
structure MembersPage where
  members : List OrgMember
  pageInfo : PageInfo
deriving Repr, DecidableEq

/-- Embeds Client.getOrgMembersPage over a total page server: returns the
page members and the cursor to continue from, empty when hasNextPage is
false or the end cursor is empty. -/
def getOrgMembersPage (fetchPage : String → MembersPage) (cursor : String) :
    List OrgMember × String :=
  let p := fetchPage cursor
  if p.pageInfo.hasNextPage && (p.pageInfo.endCursor != "") then
    (p.members, p.pageInfo.endCursor)
  else (p.members, "")

/-- The pagination loop of Client.GetOrgMembers with explicit fuel; the
second component counts the page requests made. -/
def getOrgMembersLoop (fetchPage : String → MembersPage) :
    Nat → String → List OrgMember × Nat
  | 0, _ => ([], 0)
  | fuel + 1, cursor =>
    let page := getOrgMembersPage fetchPage cursor
    if page.2 = "" then (page.1, 1)
    else
      let rest := getOrgMembersLoop fetchPage fuel page.2
      (page.1 ++ rest.1, rest.2 + 1)

/-- Embeds Client.GetOrgMembers: run the pagination loop from the empty
cursor. -/
def getOrgMembers (fetchPage : String → MembersPage) (fuel : Nat) :
    List OrgMember × Nat :=
  getOrgMembersLoop fetchPage fuel ""

/-- Response record as seen by checkResponseForErrors. -/
structure HttpResponse where
  statusCode : Nat
  status : String
  body : String
deriving Repr, DecidableEq

/-- Errors produced by checkResponseForErrors. -/
inductive RespErr where
  | apiErr (messages : List String)
  | httpStatusErr (status : String)
deriving Repr, DecidableEq

/-- The message each response error renders, as formatted by the source. -/
def respErrMessage : RespErr → String
  | .apiErr msgs => "graphql error: " ++ String.intercalate ", " msgs
  | .httpStatusErr status => "response returned status " ++ status

/-- The success status code compared against by the source. -/
def httpStatusOK : Nat := 200

/-- Embeds checkResponseForErrors: the error-envelope check comes first
and wins regardless of status; then the status check; else no error. -/
def checkResponseForErrors (parseErrs : String → List String) (r : HttpResponse) :
    Option RespErr :=
  let errs := parseErrs r.body
  if errs.length > 0 then some (RespErr.apiErr errs)
  else if r.statusCode ≠ httpStatusOK then some (RespErr.httpStatusErr r.status)
  else none

/-- Specification-side reading of the domain: the suffix of the email
after the last at sign, written as the longest at-free suffix. -/
def specDomainAfterLastAt (email : String) : String :=
  String.mk ((email.data.reverse.takeWhile (fun c => c != '@')).reverse)

/-- A normalized member record for concrete scenarios. -/
def mkNormMember (id email domain name org : String) : Member :=
  { id := id, email := email, domain := domain, name := name, org := org,
    role := "member", lastAuth := none, complimentary := false }

/-- Scenario member 1 of the three-member report scenario. -/
def c1m1 : Member := mkNormMember "1" "a@x.com" "x.com" "Llama" "O1"

/-- Scenario member 2 of the three-member report scenario. -/
def c1m2 : Member := mkNormMember "2" "a@x.com" "x.com" "Llama" "O2"

/-- Scenario member 3 of the three-member report scenario. -/
def c1m3 : Member := mkNormMember "3" "b@x.com" "x.com" "Llama" "O1"

/-- The three members of the report scenario, in fetch order. -/
def c1members : List Member := [c1m1, c1m2, c1m3]

/-- The report entry the scenario produces for a@x.com. -/
def c1entryA : MemberWithDuplicates :=
  { member := c1m1, emailDuplicates := [c1m2], nameDuplicates := [c1m3] }

/-- The report entry the scenario produces for b@x.com. -/
def c1entryB : MemberWithDuplicates :=
  { member := c1m3, emailDuplicates := [], nameDuplicates := [c1m1, c1m2] }

/-- A raw member whose effective email has no at sign. -/
def c2omBad : OrgMember :=
  { id := "21", name := "Llama", email := "noatsign", role := "MEMBER", bot := false,
    complimentary := false, createdAt := ⟨0⟩, authorization := none }

/-- A raw member with a well-formed account email and no authorization. -/
def c2omGood : OrgMember :=
  { id := "22", name := "Llama", email := "llama@x.com", role := "MEMBER", bot := false,
    complimentary := false, createdAt := ⟨0⟩, authorization := none }

/-- The normalized form of c2omGood under organization org2. -/
def c2mGood : Member :=
  { id := "22", email := "llama@x.com", domain := "x.com", name := "Llama",
    org := "org2", role := "member", lastAuth := none, complimentary := false }

/-- A concrete authorization whose identity differs from the account. -/
def c3auth : Authorization :=
  { id := "a3", email := "sso@y.com", name := "SSO Name", createdAt := ⟨7⟩,
    expireAt := none, revokedAt := none, userSessionDestroyedAt := none }

/-- A raw member carrying the authorization c3auth. -/
def c3om : OrgMember :=
  { id := "3", name := "Acct Name", email := "acct@x.com", role := "MEMBER", bot := false,
    complimentary := false, createdAt := ⟨5⟩, authorization := some c3auth }

/-- The normalized form of c3om under organization org3. -/
def c3m : Member :=
  { id := "3", email := "sso@y.com", domain := "y.com", name := "Acct Name",
    org := "org3", role := "member", lastAuth := some ⟨7⟩, complimentary := false }

/-- An authorization whose identity name differs from the account name. -/
def c9auth : Authorization :=
  { id := "a9", email := "ident@z.com", name := "Identity Name", createdAt := ⟨11⟩,
    expireAt := none, revokedAt := none, userSessionDestroyedAt := none }

/-- A raw member carrying the authorization c9auth. -/
def c9om : OrgMember :=
  { id := "9", name := "Account Name", email := "acct@z.com", role := "ADMIN", bot := false,
    complimentary := true, createdAt := ⟨10⟩, authorization := some c9auth }

/-- The normalized form of c9om under organization org9. -/
def c9m : Member :=
  { id := "9", email := "ident@z.com", domain := "z.com", name := "Account Name",
    org := "org9", role := "admin", lastAuth := some ⟨11⟩, complimentary := true }

/-- First of two members sharing an email, for the collapse scenario. -/
def c4m1 : Member := mkNormMember "41" "dup@x.com" "x.com" "Alpaca" "O1"

/-- Second of two members sharing an email, for the collapse scenario. -/
def c4m2 : Member := mkNormMember "42" "dup@x.com" "x.com" "Alpaca" "O2"

/-- The surviving report entry of the collapse scenario. -/
def c4entryA : MemberWithDuplicates :=
  { member := c4m1, emailDuplicates := [c4m2], nameDuplicates := [] }

/-- First report entry of the duplicate-representative scenario. -/
def c10r1 : MemberWithDuplicates :=
  { member := mkNormMember "x" "p@x.com" "x.com" "P" "O1",
    emailDuplicates := [], nameDuplicates := [] }

/-- Second report entry of the duplicate-representative scenario, sharing
the representative id of the first. -/
def c10r2 : MemberWithDuplicates :=
  { member := mkNormMember "x" "q@x.com" "x.com" "Q" "O2",
    emailDuplicates := [], nameDuplicates := [] }

/-- A raw account member with a numbered id, for the pagination scenario. -/
def mkAccountMember (i : Nat) : OrgMember :=
  { id := toString i, name := "llama", email := "llama@x.com", role := "MEMBER",
    bot := false, complimentary := false, createdAt := ⟨0⟩, authorization := none }

/-- A run of consecutive numbered account members. -/
def pageMembersRange (start count : Nat) : List OrgMember :=
  (List.range count).map (fun j => mkAccountMember (start + j))

/-- A page server holding 250 members served 100 per page. -/
def server250 : String → MembersPage
  | "" => ⟨pageMembersRange 0 100, ⟨true, "cursor1"⟩⟩
  | "cursor1" => ⟨pageMembersRange 100 100, ⟨true, "cursor2"⟩⟩
  | "cursor2" => ⟨pageMembersRange 200 50, ⟨false, ""⟩⟩
  | _ => ⟨[], ⟨false, ""⟩⟩

/-- The strict byte order is asymmetric. -/
lemma lexLt_asymm : ∀ as bs, lexLt as bs = true → lexLt bs as = false := by
  intro as
  induction as with
  | nil =>
    intro bs h
    cases bs with
    | nil => simp [lexLt] at h
    | cons b bs => simp [lexLt]
  | cons a as ih =>
    intro bs h
    cases bs with
    | nil => simp [lexLt] at h
    | cons b bs =>
      simp only [lexLt] at h ⊢
      by_cases h1 : a.toNat < b.toNat
      · have h2 : ¬ b.toNat < a.toNat := by omega
        simp [h1, h2]
      · by_cases h2 : b.toNat < a.toNat
        · simp [h1, h2] at h
        · simp [h1, h2] at h ⊢
          exact ih bs h

/-- Quasi-transitivity of the strict byte order used to derive
transitivity of the derived non-strict order. -/
lemma lexLt_trans_aux :
    ∀ as bs cs, lexLt cs as = true → lexLt cs bs = false → lexLt bs as = true := by
  intro as
  induction as with
  | nil =>
    intro bs cs h1 _
    cases cs with
    | nil => simp [lexLt] at h1
    | cons c cs => simp [lexLt] at h1
  | cons a as ih =>
    intro bs cs h1 h2
    cases cs with
    | nil =>
      cases bs with
      | nil => simp [lexLt]
      | cons b bs => simp [lexLt] at h2
    | cons c cs =>
      cases bs with
      | nil => simp [lexLt]
      | cons b bs =>
        simp only [lexLt] at h1 h2 ⊢
        by_cases hca : c.toNat < a.toNat
        · by_cases hcb : c.toNat < b.toNat
          · simp [hcb] at h2
          · have hba : b.toNat < a.toNat := by omega
            simp [hba]
        · by_cases hac : a.toNat < c.toNat
          · simp [hca, hac] at h1
          · simp [hca, hac] at h1
            by_cases hcb : c.toNat < b.toNat
            · simp [hcb] at h2
            · by_cases hbc : b.toNat < c.toNat
              · have hba : b.toNat < a.toNat := by omega
                simp [hba]
              · simp [hcb, hbc] at h2
                have hba1 : ¬ b.toNat < a.toNat := by omega
                have hba2 : ¬ a.toNat < b.toNat := by omega
                simp [hba1, hba2]
                exact ih bs cs h1 h2

/-- Transitivity of the derived non-strict string order. -/
lemma strLe_trans {a b c : String} (h1 : strLe a b = true) (h2 : strLe b c = true) :
    strLe a c = true := by
  simp only [strLe, Bool.not_eq_true'] at h1 h2 ⊢
  cases hl : lexLt c.data a.data with
  | false => rfl
  | true => rw [lexLt_trans_aux a.data b.data c.data hl h2] at h1; exact h1

/-- Totality of the derived non-strict string order. -/
lemma strLe_of_not {x y : String} (h : strLe x y = false) : strLe y x = true := by
  simp only [strLe, Bool.not_eq_false'] at h
  simp only [strLe, Bool.not_eq_true']
  exact lexLt_asymm y.data x.data h

/-- Membership through insertion. -/
lemma mem_insertSorted {x a : String} :
    ∀ l, a ∈ insertSorted x l ↔ a = x ∨ a ∈ l := by
  intro l
  induction l with
  | nil => simp [insertSorted]
  | cons y ys ih =>
    simp only [insertSorted]
    by_cases h : strLe x y = true
    · rw [if_pos h]
      simp [List.mem_cons]
    · rw [if_neg h]
      simp only [List.mem_cons, ih]
      tauto

/-- Membership through sorting. -/
lemma mem_sortStrings {a : String} : ∀ l, a ∈ sortStrings l ↔ a ∈ l := by
  intro l
  induction l with
  | nil => simp [sortStrings]
  | cons x xs ih =>
    simp only [sortStrings, List.foldr_cons] at ih ⊢
    rw [mem_insertSorted, ih, List.mem_cons]

/-- Insertion grows the length by one. -/
lemma length_insertSorted (x : String) :
    ∀ l, (insertSorted x l).length = l.length + 1 := by
  intro l
  induction l with
  | nil => rfl
  | cons y ys ih =>
    simp only [insertSorted]
    by_cases h : strLe x y = true
    · rw [if_pos h]; simp
    · rw [if_neg h]; simp [ih]

/-- Sorting preserves the length. -/
lemma length_sortStrings : ∀ l, (sortStrings l).length = l.length := by
  intro l
  induction l with
  | nil => rfl
  | cons x xs ih =>
    simp only [sortStrings, List.foldr_cons] at ih ⊢
    rw [length_insertSorted, ih, List.length_cons]

/-- Insertion preserves sortedness. -/
lemma pairwise_insertSorted (x : String) :
    ∀ l, List.Pairwise (fun a b => strLe a b = true) l →
      List.Pairwise (fun a b => strLe a b = true) (insertSorted x l) := by
  intro l
  induction l with
  | nil => intro _; simp [insertSorted]
  | cons y ys ih =>
    intro hp
    rcases List.pairwise_cons.mp hp with ⟨hy, hys⟩
    simp only [insertSorted]
    by_cases h : strLe x y = true
    · rw [if_pos h]
      refine List.pairwise_cons.mpr ⟨?_, hp⟩
      intro z hz
      rcases List.mem_cons.mp hz with rfl | hz2
      · exact h
      · exact strLe_trans h (hy z hz2)
    · rw [if_neg h]
      refine List.pairwise_cons.mpr ⟨?_, ih hys⟩
      intro z hz
      rcases (mem_insertSorted _).mp hz with rfl | hz2
      · exact strLe_of_not (by simpa using h)
      · exact hy z hz2

/-- The sorted email list is ascending. -/
lemma pairwise_sortStrings :
    ∀ l, List.Pairwise (fun a b => strLe a b = true) (sortStrings l) := by
  intro l
  induction l with
  | nil => simp [sortStrings]
  | cons x xs ih =>
    simp only [sortStrings, List.foldr_cons] at ih ⊢
    exact pairwise_insertSorted x _ ih

/-- The last index is none exactly when the character is absent. -/
lemma lastIndexOf_eq_none {c : Char} :
    ∀ l, lastIndexOf l c = none ↔ c ∉ l := by
  intro l
  induction l with
  | nil => simp [lastIndexOf]
  | cons a as ih =>
    constructor
    · intro h
      simp only [lastIndexOf] at h
      cases hr : lastIndexOf as c with
      | some i => rw [hr] at h; exact absurd h (by simp)
      | none =>
        rw [hr] at h
        by_cases hac : a = c
        · rw [if_pos hac] at h; exact absurd h (by simp)
        · intro hmem
          rcases List.mem_cons.mp hmem with h1 | h1
          · exact hac h1.symm
          · exact (ih.mp hr) h1
    · intro h
      simp only [lastIndexOf]
      have has : c ∉ as := fun hm => h (List.mem_cons_of_mem _ hm)
      rw [ih.mpr has]
      have hac : ¬ (a = c) := fun he => h (by rw [← he]; exact List.mem_cons_self a as)
      rw [if_neg hac]

/-- A found last index implies the character occurs. -/
lemma lastIndexOf_some_mem {c : Char} {l : List Char} {i : Nat}
    (h : lastIndexOf l c = some i) : c ∈ l := by
  by_contra hc
  rw [(lastIndexOf_eq_none l).mpr hc] at h
  cases h

/-- A failing element inside the first part stops takeWhile there. -/
lemma takeWhile_append_stop {p : Char → Bool} :
    ∀ xs ys : List Char, (∃ x ∈ xs, p x = false) →
      List.takeWhile p (xs ++ ys) = List.takeWhile p xs := by
  intro xs
  induction xs with
  | nil =>
    intro ys h
    rcases h with ⟨x, hx, _⟩
    cases hx
  | cons a as ih =>
    intro ys h
    simp only [List.cons_append, List.takeWhile_cons]
    cases hpa : p a with
    | false => rfl
    | true =>
      rcases h with ⟨x, hx, hpx⟩
      rcases List.mem_cons.mp hx with rfl | hx2
      · rw [hpa] at hpx; cases hpx
      · rw [ih ys ⟨x, hx2, hpx⟩]

/-- When every element of the first part passes, takeWhile crosses it. -/
lemma takeWhile_append_cross {p : Char → Bool} :
    ∀ xs ys : List Char, (∀ x ∈ xs, p x = true) →
      List.takeWhile p (xs ++ ys) = xs ++ List.takeWhile p ys := by
  intro xs
  induction xs with
  | nil => intro ys _; rfl
  | cons a as ih =>
    intro ys h
    simp only [List.cons_append, List.takeWhile_cons]
    rw [h a (List.mem_cons_self a as), ih ys (fun x hx => h x (List.mem_cons_of_mem _ hx))]
    rfl

/-- Dropping past the last occurrence yields the longest suffix free of
the character, spelt via takeWhile on the reversed list. -/
lemma drop_lastIndexOf {c : Char} :
    ∀ (l : List Char) (i : Nat), lastIndexOf l c = some i →
      l.drop (i + 1) = (l.reverse.takeWhile (fun x => x != c)).reverse := by
  intro l
  induction l with
  | nil => intro i h; cases h
  | cons a as ih =>
    intro i h
    simp only [lastIndexOf] at h
    cases hr : lastIndexOf as c with
    | some j =>
      rw [hr] at h
      injection h with hij
      subst hij
      have hmem : c ∈ as := lastIndexOf_some_mem hr
      rw [show (a :: as).reverse = as.reverse ++ [a] by simp,
        takeWhile_append_stop as.reverse [a] ⟨c, by simp [hmem], by simp⟩,
        List.drop_succ_cons]
      exact ih j hr
    | none =>
      rw [hr] at h
      by_cases hac : a = c
      · rw [if_pos hac] at h
        injection h with hij
        subst hij
        have hnotin : c ∉ as := (lastIndexOf_eq_none as).mp hr
        have hall : ∀ x ∈ as.reverse, (x != c) = true := by
          intro x hx
          have hxas : x ∈ as := List.mem_reverse.mp hx
          simp only [bne_iff_ne, ne_eq]
          intro he
          exact hnotin (he ▸ hxas)
        rw [show (a :: as).reverse = as.reverse ++ [a] by simp,
          takeWhile_append_cross as.reverse [a] hall]
        subst hac
        simp [List.takeWhile_cons]
      · rw [if_neg hac] at h
        cases h

/-- A successful domain extraction returns the suffix after the last at
sign. -/
lemma getEmailDomain_ok {email d : String} (h : getEmailDomain email = Except.ok d) :
    d = specDomainAfterLastAt email := by
  unfold getEmailDomain at h
  cases hr : lastIndexOf email.data '@' with
  | some i =>
    rw [hr] at h
    injection h with hd
    rw [← hd, specDomainAfterLastAt, drop_lastIndexOf email.data i hr]
  | none => rw [hr] at h; cases h

/-- Domain extraction fails on a string without an at sign, naming it. -/
lemma getEmailDomain_err {email : String} (h : '@' ∉ email.data) :
    getEmailDomain email = Except.error (CliError.invalidEmail email) := by
  unfold getEmailDomain
  rw [(lastIndexOf_eq_none email.data).mpr h]

/-- Shape of a successfully normalized member. -/
lemma normalizeMember_ok {slug : String} {om : OrgMember} {m : Member}
    (h : normalizeMember slug om = Except.ok m) :
    ∃ domain, getEmailDomain (effectiveEmail om) = Except.ok domain ∧
      m = { id := om.id, email := effectiveEmail om, domain := domain, name := om.name,
            org := slug, role := toLowerString om.role, lastAuth := lastAuthOf om,
            complimentary := om.complimentary } := by
  unfold normalizeMember at h
  cases hg : getEmailDomain (effectiveEmail om) with
  | error e => rw [hg] at h; cases h
  | ok domain =>
    rw [hg] at h
    injection h with hm
    exact ⟨domain, rfl, hm.symm⟩

/-- Normalization fails on a member whose effective email has no at sign,
naming that email. -/
lemma normalizeMember_err {slug : String} {om : OrgMember}
    (h : '@' ∉ (effectiveEmail om).data) :
    normalizeMember slug om = Except.error (CliError.invalidEmail (effectiveEmail om)) := by
  unfold normalizeMember
  rw [getEmailDomain_err h]

/-- Every member of a successful per-organization normalization comes
from normalizing some raw member of that organization. -/
lemma normalizeAll_ok_mem {slug : String} :
    ∀ oms ms, normalizeAll slug oms = Except.ok ms →
      ∀ m ∈ ms, ∃ om ∈ oms, normalizeMember slug om = Except.ok m := by
  intro oms
  induction oms with
  | nil =>
    intro ms h m hm
    unfold normalizeAll at h
    injection h with h
    subst h
    cases hm
  | cons om oms ih =>
    intro ms h m hm
    unfold normalizeAll at h
    cases h1 : normalizeMember slug om with
    | error e => rw [h1] at h; cases h
    | ok m0 =>
      rw [h1] at h
      cases h2 : normalizeAll slug oms with
      | error e => rw [h2] at h; cases h
      | ok ms0 =>
        rw [h2] at h
        injection h with h
        subst h
        rcases List.mem_cons.mp hm with rfl | hm2
        · exact ⟨om, List.mem_cons_self _ _, h1⟩
        · rcases ih ms0 h2 m hm2 with ⟨om2, hom2, hok⟩
          exact ⟨om2, List.mem_cons_of_mem _ hom2, hok⟩

/-- A successful per-organization normalization normalizes every raw
member successfully. -/
lemma normalizeAll_ok_forall {slug : String} :
    ∀ oms ms, normalizeAll slug oms = Except.ok ms →
      ∀ om ∈ oms, ∃ m, normalizeMember slug om = Except.ok m := by
  intro oms
  induction oms with
  | nil => intro ms _ om hom; cases hom
  | cons om0 oms ih =>
    intro ms h om hom
    unfold normalizeAll at h
    cases h1 : normalizeMember slug om0 with
    | error e => rw [h1] at h; cases h
    | ok m0 =>
      rw [h1] at h
      cases h2 : normalizeAll slug oms with
      | error e => rw [h2] at h; cases h
      | ok ms0 =>
        rcases List.mem_cons.mp hom with rfl | hom2
        · exact ⟨m0, h1⟩
        · exact ih ms0 h2 om hom2

/-- Every member of a successful multi-organization fetch comes from
normalizing some raw member. -/
lemma getMembers_ok_mem :
    ∀ orgs ms, getMembers orgs = Except.ok ms →
      ∀ m ∈ ms, ∃ slug om, normalizeMember slug om = Except.ok m := by
  intro orgs
  induction orgs with
  | nil =>
    intro ms h m hm
    unfold getMembers at h
    injection h with h
    subst h
    cases hm
  | cons p rest ih =>
    intro ms h m hm
    obtain ⟨slug, oms⟩ := p
    unfold getMembers at h
    cases h1 : normalizeAll slug oms with
    | error e => rw [h1] at h; cases h
    | ok ms1 =>
      rw [h1] at h
      cases h2 : getMembers rest with
      | error e => rw [h2] at h; cases h
      | ok more =>
        rw [h2] at h
        injection h with h
        subst h
        rcases List.mem_append.mp hm with hm1 | hm2
        · rcases normalizeAll_ok_mem oms ms1 h1 m hm1 with ⟨om, _, hok⟩
          exact ⟨slug, om, hok⟩
        · exact ih more h2 m hm2

/-- A successful multi-organization fetch normalizes every raw member of
every organization successfully. -/
lemma getMembers_ok_forall :
    ∀ orgs ms, getMembers orgs = Except.ok ms →
      ∀ p ∈ orgs, ∀ om ∈ p.2, ∃ m, normalizeMember p.1 om = Except.ok m := by
  intro orgs
  induction orgs with
  | nil => intro ms _ p hp; cases hp
  | cons q rest ih =>
    intro ms h p hp
    obtain ⟨slug, oms⟩ := q
    unfold getMembers at h
    cases h1 : normalizeAll slug oms with
    | error e => rw [h1] at h; cases h
    | ok ms1 =>
      rw [h1] at h
      cases h2 : getMembers rest with
      | error e => rw [h2] at h; cases h
      | ok more =>
        rcases List.mem_cons.mp hp with rfl | hp2
        · exact normalizeAll_ok_forall oms ms1 h1
        · exact ih more h2 p hp2

/-- Characterization of every report entry: its representative heads the
email filter of its own email, its email duplicates are the tail of that
filter, its name duplicates are the name filter, and its email occurs in
the driving email list. -/
lemma buildReportLoop_mem (members : List Member) (emailFilter : String) :
    ∀ emails e, e ∈ buildReportLoop members emailFilter emails →
      filterMembersByEmail members e.member.email = e.member :: e.emailDuplicates ∧
      e.nameDuplicates = filterMembers members
        (fun m => m.name == e.member.name && m.email != e.member.email) ∧
      e.member.email ∈ emails := by
  intro emails
  induction emails with
  | nil => intro e he; simp [buildReportLoop] at he
  | cons email rest ih =>
    intro e he
    simp only [buildReportLoop] at he
    by_cases hskip : ((emailFilter != "") && (emailFilter != email)) = true
    · rw [if_pos hskip] at he
      rcases ih e he with ⟨h1, h2, h3⟩
      exact ⟨h1, h2, List.mem_cons_of_mem _ h3⟩
    · rw [if_neg hskip] at he
      cases hfil : filterMembersByEmail members email with
      | nil =>
        rw [hfil] at he
        rcases ih e he with ⟨h1, h2, h3⟩
        exact ⟨h1, h2, List.mem_cons_of_mem _ h3⟩
      | cons member dups =>
        rw [hfil] at he
        rcases List.mem_cons.mp he with rfl | he2
        · have hm : member ∈ filterMembersByEmail members email := by
            rw [hfil]; exact List.mem_cons_self _ _
          have heq : member.email = email := eq_of_beq (List.mem_filter.mp hm).2
          refine ⟨?_, rfl, ?_⟩
          · show filterMembersByEmail members member.email = member :: dups
            rw [heq]; exact hfil
          · show member.email ∈ email :: rest
            rw [heq]; exact List.mem_cons_self _ _
        · rcases ih e he2 with ⟨h1, h2, h3⟩
          exact ⟨h1, h2, List.mem_cons_of_mem _ h3⟩

/-- An ascending email list yields report entries ascending by
representative email. -/
lemma buildReportLoop_pairwise (members : List Member) (emailFilter : String) :
    ∀ emails, List.Pairwise (fun a b => strLe a b = true) emails →
      List.Pairwise
        (fun a b : MemberWithDuplicates => strLe a.member.email b.member.email = true)
        (buildReportLoop members emailFilter emails) := by
  intro emails
  induction emails with
  | nil => intro _; simp [buildReportLoop]
  | cons email rest ih =>
    intro hp
    rcases List.pairwise_cons.mp hp with ⟨hhead, htail⟩
    simp only [buildReportLoop]
    by_cases hskip : ((emailFilter != "") && (emailFilter != email)) = true
    · rw [if_pos hskip]; exact ih htail
    · rw [if_neg hskip]
      cases hfil : filterMembersByEmail members email with
      | nil => exact ih htail
      | cons member dups =>
        refine List.pairwise_cons.mpr ⟨?_, ih htail⟩
        intro e2 he2
        have h3 := (buildReportLoop_mem members emailFilter rest e2 he2).2.2
        have heq : member.email = email := by
          have hm : member ∈ filterMembersByEmail members email := by
            rw [hfil]; exact List.mem_cons_self _ _
          exact eq_of_beq (List.mem_filter.mp hm).2
        show strLe member.email e2.member.email = true
        rw [heq]
        exact hhead _ h3

/-- With no single-email filter, the report loop emits one entry per
element of the email list, provided every listed email matches some
member. -/
lemma buildReportLoop_length (members : List Member) :
    ∀ emails, (∀ email ∈ emails, filterMembersByEmail members email ≠ []) →
      (buildReportLoop members "" emails).length = emails.length := by
  intro emails
  induction emails with
  | nil => intro _; rfl
  | cons email rest ih =>
    intro h
    simp only [buildReportLoop]
    have hcond : ¬ (((("" : String) != "") && (("" : String) != email)) = true) := by simp
    rw [if_neg hcond]
    cases hfil : filterMembersByEmail members email with
    | nil => exact absurd hfil (h email (List.mem_cons_self _ _))
    | cons member dups =>
      simp only [List.length_cons]
      rw [ih (fun e he => h e (List.mem_cons_of_mem _ he))]

/-- Marking only grows the seen set. -/
lemma mem_markSeen_of_mem {x : String} {dE dN : Bool} {r : MemberWithDuplicates}
    {seen : List String} (h : x ∈ seen) : x ∈ markSeen dE dN r seen := by
  unfold markSeen
  cases dE <;> cases dN <;> simp [List.mem_append, h]

/-- The kept representative id is marked. -/
lemma self_mem_markSeen {dE dN : Bool} {r : MemberWithDuplicates} {seen : List String} :
    r.member.id ∈ markSeen dE dN r seen := by
  unfold markSeen
  cases dE <;> cases dN <;> simp [List.mem_append]

/-- Every entry kept by the collapse walk comes from the input report and
carries a representative id not seen before the walk. -/
lemma collapseGo_sub_fresh (dE dN : Bool) :
    ∀ rs seen, ∀ e ∈ collapseGo dE dN rs seen, e ∈ rs ∧ e.member.id ∉ seen := by
  intro rs
  induction rs with
  | nil => intro seen e he; simp [collapseGo] at he
  | cons r rs ih =>
    intro seen e he
    simp only [collapseGo] at he
    by_cases hmem : r.member.id ∈ seen
    · rw [if_pos hmem] at he
      rcases ih seen e he with ⟨h1, h2⟩
      exact ⟨List.mem_cons_of_mem _ h1, h2⟩
    · rw [if_neg hmem] at he
      rcases List.mem_cons.mp he with rfl | he2
      · exact ⟨List.mem_cons_self _ _, hmem⟩
      · rcases ih _ e he2 with ⟨h1, h2⟩
        exact ⟨List.mem_cons_of_mem _ h1, fun hx => h2 (mem_markSeen_of_mem hx)⟩

/-- The collapse walk emits pairwise distinct representative ids. -/
lemma collapseGo_pairwise (dE dN : Bool) :
    ∀ rs seen,
      List.Pairwise (fun a b : MemberWithDuplicates => a.member.id ≠ b.member.id)
        (collapseGo dE dN rs seen) := by
  intro rs
  induction rs with
  | nil => intro seen; simp [collapseGo]
  | cons r rs ih =>
    intro seen
    simp only [collapseGo]
    by_cases hmem : r.member.id ∈ seen
    · rw [if_pos hmem]; exact ih seen
    · rw [if_neg hmem]
      refine List.pairwise_cons.mpr ⟨?_, ih _⟩
      intro e he
      have h2 := (collapseGo_sub_fresh dE dN rs _ e he).2
      intro heq
      exact h2 (heq ▸ self_mem_markSeen)

/-- C1 (counterexample): on the three-member scenario with no email
filter and no dedupe flags, the report does not have exactly 2 entries;
the email list is built with one element per member, not per distinct
email, so the duplicated email a@x.com yields a duplicated entry. -/
theorem buildReport_scenario_not_two_entries :
    ¬ ((buildReport "" c1members).length = 2) := by decide

/-- C1 (amended): BuildReport produces exactly one MemberWithDuplicates
entry per member (one per occurrence of each email, not per distinct
email), in ascending email order; on the three-member scenario it
produces 3 entries: the a@x.com entry (EmailDuplicates=[id2],
NameDuplicates=[id3]) twice, then the b@x.com entry
(NameDuplicates=[id1,id2]) once. -/
theorem buildReport_entry_per_occurrence :
    (∀ members : List Member, (buildReport "" members).length = members.length) ∧
    (∀ (f : String) (members : List Member),
      List.Pairwise
        (fun a b : MemberWithDuplicates => strLe a.member.email b.member.email = true)
        (buildReport f members)) ∧
    buildReport "" c1members = [c1entryA, c1entryA, c1entryB] := by
  refine ⟨?_, ?_, ?_⟩
  · intro members
    unfold buildReport
    rw [buildReportLoop_length members _ ?_]
    · rw [length_sortStrings, List.length_map]
    · intro email he
      rcases List.mem_map.mp ((mem_sortStrings _).mp he) with ⟨m, hm, rfl⟩
      have hin : m ∈ filterMembersByEmail members m.email :=
        List.mem_filter.mpr ⟨hm, by simp⟩
      exact List.ne_nil_of_mem hin
  · intro f members
    exact buildReportLoop_pairwise members f _ (pairwise_sortStrings _)
  · decide

/-- C2: every normalized member carries as domain the suffix of its
effective email after the last at sign; a member whose effective email
has no at sign makes normalization fail with the invalid-email error
naming that email, and any such member anywhere in the multi-org input
makes the whole fetch return an error instead of a result list. -/
theorem member_domain_after_last_at :
    (∀ orgs ms, getMembers orgs = Except.ok ms →
        ∀ m ∈ ms, m.domain = specDomainAfterLastAt m.email) ∧
    (∀ slug om, '@' ∉ (effectiveEmail om).data →
        normalizeMember slug om =
          Except.error (CliError.invalidEmail (effectiveEmail om))) ∧
    (∀ orgs, (∃ p ∈ orgs, ∃ om ∈ p.2, '@' ∉ (effectiveEmail om).data) →
        ∃ e, getMembers orgs = Except.error e) := by
  refine ⟨?_, ?_, ?_⟩
  · intro orgs ms h m hm
    rcases getMembers_ok_mem orgs ms h m hm with ⟨slug, om, hok⟩
    rcases normalizeMember_ok hok with ⟨domain, hdom, rfl⟩
    simpa using getEmailDomain_ok hdom
  · intro slug om h
    exact normalizeMember_err h
  · intro orgs h
    rcases h with ⟨p, hp, om, hom, hbad⟩
    cases hg : getMembers orgs with
    | error e => exact ⟨e, rfl⟩
    | ok ms =>
      exfalso
      rcases getMembers_ok_forall orgs ms hg p hp om hom with ⟨m, hok⟩
      rw [normalizeMember_err hbad] at hok
      cases hok

/-- Witness for C2: a successfully fetched member has the domain the
specification describes, a member with an at-free effective email fails
with the invalid-email error naming it, and a multi-org input holding
such a member makes the whole fetch error out. -/
theorem member_domain_after_last_at_witness :
    c2mGood.domain = specDomainAfterLastAt c2mGood.email ∧
    normalizeMember "org2" c2omBad =
      Except.error (CliError.invalidEmail (effectiveEmail c2omBad)) ∧
    (∃ e, getMembers [("org2", [c2omGood, c2omBad])] = Except.error e) := by
  refine ⟨?_, ?_, ?_⟩
  · exact member_domain_after_last_at.1 [("org2", [c2omGood])] [c2mGood] rfl c2mGood
      (List.mem_singleton.mpr rfl)
  · exact member_domain_after_last_at.2.1 "org2" c2omBad (by decide)
  · exact member_domain_after_last_at.2.2 [("org2", [c2omGood, c2omBad])]
      ⟨("org2", [c2omGood, c2omBad]), List.mem_singleton.mpr rfl, c2omBad,
        by decide, by decide⟩

/-- C3: a normalized member takes its email and last-auth timestamp from
the authorization when one is present (identity email and creation
time), falls back to the account email and a null timestamp otherwise,
and lower-cases the raw role. -/
theorem normalize_effective_email_lastauth_role :
    ∀ slug om m, normalizeMember slug om = Except.ok m →
      (∀ a, om.authorization = some a →
        m.email = a.email ∧ m.lastAuth = some a.createdAt) ∧
      (om.authorization = none → m.email = om.email ∧ m.lastAuth = none) ∧
      m.role = toLowerString om.role := by
  intro slug om m h
  rcases normalizeMember_ok h with ⟨domain, _, rfl⟩
  refine ⟨?_, ?_, rfl⟩
  · intro a ha
    constructor <;> simp [effectiveEmail, lastAuthOf, ha]
  · intro ha
    constructor <;> simp [effectiveEmail, lastAuthOf, ha]

/-- Witness for C3: the concrete member with an authorization present
takes the identity email, the authorization creation time, and the
lower-cased role. -/
theorem normalize_effective_email_lastauth_role_witness :
    c3m.email = c3auth.email ∧ c3m.lastAuth = some c3auth.createdAt ∧
    c3m.role = toLowerString c3om.role := by
  have h := normalize_effective_email_lastauth_role "org3" c3om c3m rfl
  exact ⟨(h.1 c3auth rfl).1, (h.1 c3auth rfl).2, h.2.2⟩

/-- C9: normalization takes name, id, role, org and complimentary from
the account record and the org slug irrespective of any authorization;
in particular the name stays the account name even when the identity
name of the authorization differs. -/
theorem normalize_frame_account_fields :
    ∀ slug om m, normalizeMember slug om = Except.ok m →
      m.name = om.name ∧ m.id = om.id ∧ m.role = toLowerString om.role ∧
      m.org = slug ∧ m.complimentary = om.complimentary := by
  intro slug om m h
  rcases normalizeMember_ok h with ⟨domain, _, rfl⟩
  exact ⟨rfl, rfl, rfl, rfl, rfl⟩

/-- Witness for C9: the concrete member whose authorization carries a
different identity name keeps the account name, id, lower-cased role,
org slug and complimentary flag. -/
theorem normalize_frame_account_fields_witness :
    c9m.name = c9om.name ∧ c9m.id = c9om.id ∧ c9m.role = toLowerString c9om.role ∧
    c9m.org = "org9" ∧ c9m.complimentary = c9om.complimentary := by
  exact normalize_frame_account_fields "org9" c9om c9m rfl

/-- C5: with neither dedupe flag set, the collapse returns the report
unchanged. -/
theorem collapse_no_flags_identity (report : List MemberWithDuplicates) :
    collapse false false report = report := by
  simp [collapse]

/-- C10: whenever at least one dedupe flag is set, the collapsed report
has pairwise distinct representative ids. -/
theorem collapse_distinct_representative_ids :
    ∀ (dE dN : Bool) (report : List MemberWithDuplicates),
      dE = true ∨ dN = true →
      List.Pairwise (fun a b : MemberWithDuplicates => a.member.id ≠ b.member.id)
        (collapse dE dN report) := by
  intro dE dN report h
  have hor : (dE || dN) = true := by rcases h with rfl | rfl <;> simp
  unfold collapse
  rw [if_pos hor]
  exact collapseGo_pairwise dE dN report []

/-- Witness for C10: collapsing a report whose two entries share a
representative id yields pairwise distinct representative ids. -/
theorem collapse_distinct_representative_ids_witness :
    List.Pairwise (fun a b : MemberWithDuplicates => a.member.id ≠ b.member.id)
      (collapse true false [c10r1, c10r2]) :=
  collapse_distinct_representative_ids true false [c10r1, c10r2] (Or.inl rfl)

/-- C4: collapsing with dedupe-by-email set makes every surviving entry
represent the first member carrying its email (the email filter of the
member is headed by the member itself, followed by its email
duplicates); any two surviving entries with the same email are the same
entry, and surviving representative ids are pairwise distinct, so for
two members sharing an email at most one survives, and it is the
first-seen representative. -/
theorem collapse_dedupe_email_first_survivor (members : List Member) (dN : Bool)
    (f : String) :
    (∀ e ∈ collapse true dN (buildReport f members),
        filterMembersByEmail members e.member.email = e.member :: e.emailDuplicates) ∧
    (∀ e₁ ∈ collapse true dN (buildReport f members),
      ∀ e₂ ∈ collapse true dN (buildReport f members),
        e₁.member.email = e₂.member.email → e₁ = e₂) ∧
    List.Pairwise (fun a b : MemberWithDuplicates => a.member.id ≠ b.member.id)
      (collapse true dN (buildReport f members)) := by
  have hcol : collapse true dN (buildReport f members) =
      collapseGo true dN (buildReport f members) [] := by
    unfold collapse
    rw [if_pos (by simp)]
  have hsub : ∀ e ∈ collapse true dN (buildReport f members), e ∈ buildReport f members := by
    intro e he
    rw [hcol] at he
    exact (collapseGo_sub_fresh true dN _ _ e he).1
  have hchar : ∀ e ∈ buildReport f members,
      filterMembersByEmail members e.member.email = e.member :: e.emailDuplicates ∧
      e.nameDuplicates = filterMembers members
        (fun m => m.name == e.member.name && m.email != e.member.email) := by
    intro e he
    have h := buildReportLoop_mem members f (sortStrings (members.map Member.email)) e he
    exact ⟨h.1, h.2.1⟩
  refine ⟨?_, ?_, ?_⟩
  · intro e he
    exact (hchar e (hsub e he)).1
  · intro e₁ h₁ e₂ h₂ hemail
    have c₁ := hchar e₁ (hsub e₁ h₁)
    have c₂ := hchar e₂ (hsub e₂ h₂)
    have h1a : filterMembersByEmail members e₂.member.email =
        e₁.member :: e₁.emailDuplicates := by
      rw [← hemail]
      exact c₁.1
    have hcons : e₁.member :: e₁.emailDuplicates = e₂.member :: e₂.emailDuplicates := by
      rw [← h1a, c₂.1]
    injection hcons with hmem hdups
    have hnames : e₁.nameDuplicates = e₂.nameDuplicates := by
      rw [c₁.2, c₂.2, hmem]
    have hfin : (⟨e₁.member, e₁.nameDuplicates, e₁.emailDuplicates⟩ : MemberWithDuplicates) =
        ⟨e₂.member, e₂.nameDuplicates, e₂.emailDuplicates⟩ := by
      rw [hmem, hnames, hdups]
    exact hfin
  · rw [hcol]
    exact collapseGo_pairwise true dN _ []

/-- Witness for C4: in the two-member shared-email scenario the single
surviving entry is headed by the first member with that email, and the
entry is equal to itself under the same-email test. -/
theorem collapse_dedupe_email_first_survivor_witness :
    filterMembersByEmail [c4m1, c4m2] c4entryA.member.email =
      c4entryA.member :: c4entryA.emailDuplicates ∧
    c4entryA = c4entryA := by
  have h := collapse_dedupe_email_first_survivor [c4m1, c4m2] false ""
  exact ⟨h.1 c4entryA (by decide), h.2.1 c4entryA (by decide) c4entryA (by decide) rfl⟩

/-- C6: the response check fails with the API error carrying the parsed
messages whenever the body parses to a non-empty error list, regardless
of the status code; with an empty error list it fails with the HTTP
status error exactly when the status is not the success status; and it
reports no error otherwise; the API error renders all messages joined. -/
theorem check_response_error_precedence :
    ∀ (parseErrs : String → List String) (r : HttpResponse),
      (parseErrs r.body ≠ [] →
        checkResponseForErrors parseErrs r = some (RespErr.apiErr (parseErrs r.body))) ∧
      (parseErrs r.body = [] → r.statusCode ≠ httpStatusOK →
        checkResponseForErrors parseErrs r = some (RespErr.httpStatusErr r.status)) ∧
      (parseErrs r.body = [] → r.statusCode = httpStatusOK →
        checkResponseForErrors parseErrs r = none) ∧
      (∀ msgs, respErrMessage (RespErr.apiErr msgs) =
        "graphql error: " ++ String.intercalate ", " msgs) := by
  intro parseErrs r
  refine ⟨?_, ?_, ?_, fun _ => rfl⟩
  · intro h
    unfold checkResponseForErrors
    rw [if_pos (List.length_pos.mpr h)]
  · intro h1 h2
    simp [checkResponseForErrors, h1, h2]
  · intro h1 h2
    simp [checkResponseForErrors, h1, h2]

/-- Witness for C6: a body parsing to one message wins over a failing
status; an empty error list with a failing status gives the status
error; an empty error list with the success status gives no error. -/
theorem check_response_error_precedence_witness :
    checkResponseForErrors (fun _ => ["boom"])
        { statusCode := 500, status := "500 Internal Server Error", body := "b" } =
      some (RespErr.apiErr ["boom"]) ∧
    checkResponseForErrors (fun _ => [])
        { statusCode := 500, status := "500 Internal Server Error", body := "b" } =
      some (RespErr.httpStatusErr "500 Internal Server Error") ∧
    checkResponseForErrors (fun _ => [])
        { statusCode := 200, status := "200 OK", body := "b" } = none := by
  refine ⟨?_, ?_, ?_⟩
  · exact (check_response_error_precedence (fun _ => ["boom"])
      { statusCode := 500, status := "500 Internal Server Error", body := "b" }).1
      (by decide)
  · exact (check_response_error_precedence (fun _ => [])
      { statusCode := 500, status := "500 Internal Server Error", body := "b" }).2.1
      rfl (by decide)
  · exact (check_response_error_precedence (fun _ => [])
      { statusCode := 200, status := "200 OK", body := "b" }).2.2.1 rfl rfl

set_option maxRecDepth 40000 in
/-- C7: the pagination loop stops after a single request when the page
reports no next page or an empty end cursor, continues on the reported
cursor otherwise, and on the concrete 250-member organization served 100
per page the fetch from the empty cursor makes exactly 3 page requests
and merges 250 members in original page order. -/
theorem paginate_cursor_loop :
    (∀ (fetchPage : String → MembersPage) (fuel : Nat) (cursor : String),
      ((fetchPage cursor).pageInfo.hasNextPage = false ∨
          (fetchPage cursor).pageInfo.endCursor = "") →
        getOrgMembersLoop fetchPage (fuel + 1) cursor = ((fetchPage cursor).members, 1)) ∧
    (∀ (fetchPage : String → MembersPage) (fuel : Nat) (cursor : String),
      (fetchPage cursor).pageInfo.hasNextPage = true →
      (fetchPage cursor).pageInfo.endCursor ≠ "" →
        getOrgMembersLoop fetchPage (fuel + 1) cursor =
          ((fetchPage cursor).members ++
              (getOrgMembersLoop fetchPage fuel (fetchPage cursor).pageInfo.endCursor).1,
            (getOrgMembersLoop fetchPage fuel (fetchPage cursor).pageInfo.endCursor).2 + 1)) ∧
    getOrgMembers server250 10 =
      (pageMembersRange 0 100 ++ pageMembersRange 100 100 ++ pageMembersRange 200 50, 3) ∧
    (pageMembersRange 0 100 ++ pageMembersRange 100 100 ++ pageMembersRange 200 50).length
      = 250 := by
  refine ⟨?_, ?_, ?_, ?_⟩
  · intro fetchPage fuel cursor h
    rcases h with h | h <;> simp [getOrgMembersLoop, getOrgMembersPage, h]
  · intro fetchPage fuel cursor h1 h2
    simp [getOrgMembersLoop, getOrgMembersPage, h1, h2]
  · decide
  · decide

/-- C8: in CSV output mode the pipeline renders the header plus exactly
one row per raw normalized member, for every dedupe configuration and
every single-email filter; neither affects the CSV rows, and the data
row count equals the member count. -/
theorem csv_row_per_member :
    ∀ (emailFilter : String) (dedupe : List String) (members : List Member),
      cliRun { email := emailFilter, dedupe := dedupe, output := "csv" } members =
        RunOutput.csvOut (csvHeader :: csvRows members) ∧
      (csvRows members).length = members.length := by
  intro emailFilter dedupe members
  exact ⟨rfl, by simp [csvRows]⟩

/-- Witness for C7: on the concrete server, a page reporting no next
page stops the loop after one request, and the first page continues on
the reported cursor. -/
theorem paginate_cursor_loop_witness :
    getOrgMembersLoop server250 1 "cursor2" = ((server250 "cursor2").members, 1) ∧
    getOrgMembersLoop server250 2 "" =
      ((server250 "").members ++ (getOrgMembersLoop server250 1 "cursor1").1,
        (getOrgMembersLoop server250 1 "cursor1").2 + 1) := by
  constructor
  · exact paginate_cursor_loop.1 server250 0 "cursor2" (Or.inl rfl)
  · exact paginate_cursor_loop.2.1 server250 1 "" rfl (by decide)
